import Mathlib

/-!
Verification of the HireHiker server functions and utility routines.

The relational state (tables problems, sessions, messages, analyses from
src/db/schema.ts) is modelled as lists of rows; each server function from
src/server/functions is translated to an explicit state-passing Lean
function.  Database-generated values (fresh uuids, timestamps) and results
of external calls (OpenAI chat completions) are passed as parameters.
-/

namespace HireHiker

/-- Status enum of the sessions table (session_status in db/schema.ts). -/
inductive SessionStatus where
  | pending
  | active
  | completed
  deriving DecidableEq, Repr

/-- Difficulty enum of the problems table (difficulty in db/schema.ts). -/
inductive Difficulty where
  | easy
  | medium
  | hard
  deriving DecidableEq, Repr

/-- Role enum of the messages table (message_role in db/schema.ts). -/
inductive Role where
  | user
  | assistant
  deriving DecidableEq, Repr

/-- A row of the problems table. -/
structure Problem where
  id : String
  title : String
  description : String
  codebaseContext : Option String
  difficulty : Difficulty
  category : String
  createdAt : Nat
  deriving DecidableEq, Repr

/-- A row of the sessions table. -/
structure Session where
  id : String
  candidateName : String
  candidateEmail : String
  problemId : String
  status : SessionStatus
  solution : Option String
  evaluationSettings : Option String
  startedAt : Option Nat
  completedAt : Option Nat
  createdAt : Nat
  deriving DecidableEq, Repr

/-- A row of the messages table. -/
structure Message where
  id : String
  sessionId : String
  role : Role
  content : String
  createdAt : Nat
  deriving DecidableEq, Repr

/-- A row of the analyses table. -/
structure Analysis where
  id : String
  sessionId : String
  summary : String
  questionCount : Nat
  qualityScore : Int
  dimensionScores : List (String × Int)
  strengths : List String
  improvements : List String
  createdAt : Nat
  deriving DecidableEq, Repr

/-- The database state: the four tables as row lists. -/
structure DB where
  problems : List Problem
  sessions : List Session
  messages : List Message
  analyses : List Analysis
  deriving DecidableEq, Repr

/-- The empty database. -/
def emptyDB : DB := ⟨[], [], [], []⟩

/-- Insert type for the sessions table (NewSession): the status column has
database default pending, timestamps and ids are generated. -/
structure NewSession where
  candidateName : String
  candidateEmail : String
  problemId : String
  status : Option SessionStatus
  solution : Option String
  evaluationSettings : Option String
  startedAt : Option Nat
  completedAt : Option Nat
  deriving DecidableEq, Repr

/-- Insert type for the problems table (NewProblem): codebaseContext is
nullable, difficulty defaults to medium and category to javascript-basics. -/
structure NewProblem where
  title : String
  description : String
  codebaseContext : Option String
  difficulty : Option Difficulty
  category : Option String
  deriving DecidableEq, Repr

/-- createSession from src/server/functions/sessions.ts: inserts the row
(applying the status column default) and returns it. -/
def createSession (db : DB) (data : NewSession) (freshId : String) (now : Nat) :
    Session × DB :=
  let row : Session :=
    { id := freshId
      candidateName := data.candidateName
      candidateEmail := data.candidateEmail
      problemId := data.problemId
      status := data.status.getD .pending
      solution := data.solution
      evaluationSettings := data.evaluationSettings
      startedAt := data.startedAt
      completedAt := data.completedAt
      createdAt := now }
  (row, { db with sessions := db.sessions ++ [row] })

/-- startSession from src/server/functions/sessions.ts: update sessions set
status = active, startedAt = now where id = id, returning the first updated
row.  There is no guard on the current status. -/
def startSession (db : DB) (id : String) (now : Nat) : Option Session × DB :=
  let updated := db.sessions.map fun s =>
    if s.id == id then { s with status := .active, startedAt := some now } else s
  ((updated.filter fun s => s.id == id).head?, { db with sessions := updated })

/-- completeSession from src/server/functions/sessions.ts: update sessions
set status = completed, completedAt = now where id = id.  There is no guard
on the current status. -/
def completeSession (db : DB) (id : String) (now : Nat) : Option Session × DB :=
  let updated := db.sessions.map fun s =>
    if s.id == id then { s with status := .completed, completedAt := some now } else s
  ((updated.filter fun s => s.id == id).head?, { db with sessions := updated })

/-- deleteSession from src/server/functions/sessions.ts: delete analyses of
the session, then its messages, then the session row itself. -/
def deleteSession (db : DB) (id : String) : Option Session × DB :=
  let db1 := { db with analyses := db.analyses.filter fun a => a.sessionId != id }
  let db2 := { db1 with messages := db1.messages.filter fun m => m.sessionId != id }
  let deleted := db2.sessions.filter fun s => s.id == id
  let db3 := { db2 with sessions := db2.sessions.filter fun s => s.id != id }
  (deleted.head?, db3)

/-- The sequence of database states deleteSession passes through: initial,
after deleting analyses, after deleting messages, after deleting the row. -/
def deleteSessionTrace (db : DB) (id : String) : List DB :=
  let db1 := { db with analyses := db.analyses.filter fun a => a.sessionId != id }
  let db2 := { db1 with messages := db1.messages.filter fun m => m.sessionId != id }
  let db3 := { db2 with sessions := db2.sessions.filter fun s => s.id != id }
  [db, db1, db2, db3]

/-- The per-session body of the deleteProblem loop: delete the analyses of
one session id, then its messages, for each id in turn. -/
def deleteSessionDeps : DB → List String → DB
  | db, [] => db
  | db, sid :: rest =>
      let db1 := { db with analyses := db.analyses.filter fun a => a.sessionId != sid }
      let db2 := { db1 with messages := db1.messages.filter fun m => m.sessionId != sid }
      deleteSessionDeps db2 rest

/-- The intermediate database states of the deleteProblem loop (two per
session id: after the analyses delete and after the messages delete). -/
def deleteSessionDepsTrace : DB → List String → List DB
  | _, [] => []
  | db, sid :: rest =>
      let db1 := { db with analyses := db.analyses.filter fun a => a.sessionId != sid }
      let db2 := { db1 with messages := db1.messages.filter fun m => m.sessionId != sid }
      db1 :: db2 :: deleteSessionDepsTrace db2 rest

/-- deleteProblem from src/server/functions/problems.ts: select the ids of
the sessions using the problem, delete each session's analyses and messages,
delete all sessions of the problem, and finally delete the problem row. -/
def deleteProblem (db : DB) (id : String) : Option Problem × DB :=
  let problemSessions := (db.sessions.filter fun s => s.problemId == id).map Session.id
  let db1 := deleteSessionDeps db problemSessions
  let db2 := { db1 with sessions := db1.sessions.filter fun s => s.problemId != id }
  let deleted := db2.problems.filter fun p => p.id == id
  let db3 := { db2 with problems := db2.problems.filter fun p => p.id != id }
  (deleted.head?, db3)

/-- The sequence of database states deleteProblem passes through. -/
def deleteProblemTrace (db : DB) (id : String) : List DB :=
  let problemSessions := (db.sessions.filter fun s => s.problemId == id).map Session.id
  let db1 := deleteSessionDeps db problemSessions
  let db2 := { db1 with sessions := db1.sessions.filter fun s => s.problemId != id }
  let db3 := { db2 with problems := db2.problems.filter fun p => p.id != id }
  db :: deleteSessionDepsTrace db problemSessions ++ [db2, db3]

/-- getProblem from src/server/functions/problems.ts: select where id,
return the first row or null. -/
def getProblem (db : DB) (id : String) : Option Problem :=
  (db.problems.filter fun p => p.id == id).head?

/-- createProblem from src/server/functions/problems.ts: insert the row
(applying the difficulty and category column defaults) and return it. -/
def createProblem (db : DB) (data : NewProblem) (freshId : String) (now : Nat) :
    Problem × DB :=
  let row : Problem :=
    { id := freshId
      title := data.title
      description := data.description
      codebaseContext := data.codebaseContext
      difficulty := data.difficulty.getD .medium
      category := data.category.getD "javascript-basics"
      createdAt := now }
  (row, { db with problems := db.problems ++ [row] })

/-- Referential integrity of the database: every message and analysis
references an existing session, and every session an existing problem. -/
def RefIntact (db : DB) : Prop :=
  (∀ m ∈ db.messages, ∃ s ∈ db.sessions, s.id = m.sessionId) ∧
  (∀ a ∈ db.analyses, ∃ s ∈ db.sessions, s.id = a.sessionId) ∧
  (∀ s ∈ db.sessions, ∃ p ∈ db.problems, p.id = s.problemId)

instance (db : DB) : Decidable (RefIntact db) := by
  unfold RefIntact
  infer_instance

/-- The session-lifecycle operations a client can issue (createSession,
startSession, completeSession), with the generated values as payload. -/
inductive SessionOp where
  | create (data : NewSession) (freshId : String) (now : Nat)
  | start (id : String) (now : Nat)
  | complete (id : String) (now : Nat)
  deriving Repr

/-- Apply one session-lifecycle operation to the database. -/
def applySessionOp (db : DB) : SessionOp → DB
  | .create data freshId now => (createSession db data freshId now).2
  | .start id now => (startSession db id now).2
  | .complete id now => (completeSession db id now).2

/-- Run a sequence of session-lifecycle operations. -/
def runSessionOps (db : DB) (ops : List SessionOp) : DB :=
  ops.foldl applySessionOp db

/-- The status of the (first) session row with the given id, if any. -/
def statusOf (db : DB) (id : String) : Option SessionStatus :=
  ((db.sessions.filter fun s => s.id == id).head?).map Session.status

/-- A concrete session insert used in counterexamples. -/
def c1Data : NewSession :=
  { candidateName := "Ada"
    candidateEmail := "ada@test"
    problemId := "p1"
    status := none
    solution := none
    evaluationSettings := none
    startedAt := none
    completedAt := none }

/-- A tool call carried by a chat-completion response (src/lib/openai.ts). -/
structure ToolCall where
  id : String
  name : String
  arguments : String
  deriving DecidableEq, Repr

/-- A chat-completion response message: nullable content plus tool calls. -/
structure ModelResponse where
  content : Option String
  tool_calls : List ToolCall
  deriving DecidableEq, Repr

/-- The string chat returns when a final response has null or empty content. -/
def chatNoContent : String := "Sorry, I couldn\x27t generate a response."

/-- The string chat returns when the iteration cap is reached. -/
def chatFallback : String :=
  "Sorry, I encountered an issue while processing your request. Please try again."

/-- JS truthiness fallback on a nullable string: null and the empty string
fall back to the default. -/
def jsOrString (o : Option String) (dflt : String) : String :=
  match o with
  | none => dflt
  | some s => if s == ("") then dflt else s

/-- The iteration cap of the chat tool-calling loop (maxIterations). -/
def maxIterations : Nat := 10

/-- The while loop of chat from src/lib/openai.ts.  The chat-completion API
is modelled as a stream of responses indexed by request number; the message
accumulation, tool dispatch and readFile callback do not influence the
control flow, which only inspects each response.  Returns the result string
together with the number of requests issued. -/
def chatGo (responses : Nat → ModelResponse) : Nat → Nat → String × Nat
  | iter, 0 => (chatFallback, iter)
  | iter, fuel + 1 =>
      let r := responses iter
      if r.tool_calls.isEmpty then (jsOrString r.content chatNoContent, iter + 1)
      else chatGo responses (iter + 1) fuel

/-- chat from src/lib/openai.ts: run the tool-calling loop with the fixed
iteration cap. -/
def chat (responses : Nat → ModelResponse) : String × Nat :=
  chatGo responses 0 maxIterations

/-- Result of analyzeSession from src/lib/analysis.ts, passed to
generateAnalysis as an input; qualityScore is the already-rounded integer
score (the source rounds a float with Math.round before storing). -/
structure AnalysisResult where
  summary : String
  questionCount : Nat
  qualityScore : Int
  dimensionScores : List (String × Int)
  strengths : List String
  improvements : List String
  deriving DecidableEq, Repr

/-- JS truthiness test of a nullable string: null, undefined and the empty
string are falsy. -/
def jsFalsyStr : Option String → Bool
  | none => true
  | some s => s == ("")

/-- generateAnalysis from the analyses server functions: left-join the
session with its problem, throw unless the joined problem description is
truthy, then update the existing analysis row for the session if one
exists, otherwise insert a new one.  Returns the thrown error or the
returned row, together with the resulting database state. -/
def generateAnalysis (db : DB) (sessionId : String) (analysisResult : AnalysisResult)
    (freshId : String) (now : Nat) : Except String (Option Analysis) × DB :=
  let sessionResult := (db.sessions.filter fun s => s.id == sessionId).map fun s =>
    ((db.problems.filter fun p => p.id == s.problemId).head?).map Problem.description
  let firstDescription : Option String := (sessionResult.head?).join
  if jsFalsyStr firstDescription then
    (.error ("Session or problem not found"), db)
  else
    let existing := db.analyses.filter fun a => a.sessionId == sessionId
    if existing.isEmpty then
      let row : Analysis :=
        { id := freshId
          sessionId := sessionId
          summary := analysisResult.summary
          questionCount := analysisResult.questionCount
          qualityScore := analysisResult.qualityScore
          dimensionScores := analysisResult.dimensionScores
          strengths := analysisResult.strengths
          improvements := analysisResult.improvements
          createdAt := now }
      (.ok (some row), { db with analyses := db.analyses ++ [row] })
    else
      let updated := db.analyses.map fun a =>
        if a.sessionId == sessionId then
          { a with
              summary := analysisResult.summary
              questionCount := analysisResult.questionCount
              qualityScore := analysisResult.qualityScore
              dimensionScores := analysisResult.dimensionScores
              strengths := analysisResult.strengths
              improvements := analysisResult.improvements }
        else a
      (.ok ((updated.filter fun a => a.sessionId == sessionId).head?),
        { db with analyses := updated })

/-- One generateAnalysis call recorded as data: target session, analysis
result, fresh row id and timestamp. -/
structure GenCall where
  sessionId : String
  result : AnalysisResult
  freshId : String
  now : Nat

/-- Run a sequence of generateAnalysis calls; a thrown error leaves the
database as the call left it (the error path performs no writes). -/
def runGenerateAnalysis (db : DB) (calls : List GenCall) : DB :=
  calls.foldl (fun acc c => (generateAnalysis acc c.sessionId c.result c.freshId c.now).2) db

/-- At most one analyses row per session: the sessionId column is unique. -/
def AnalysesUnique (db : DB) : Prop :=
  db.analyses.Pairwise fun a b => a.sessionId ≠ b.sessionId

instance (db : DB) : Decidable (AnalysesUnique db) := by
  unfold AnalysesUnique
  exact List.instDecidablePairwise _

/-- The branch of sendMessage selecting the AI call: the chat call with the
read_file tool when projectFiles and a non-empty fileTree are provided,
otherwise the legacy chatWithFiles call.  Both external calls are modelled
by their outcome (the reply string, or the thrown error). -/
def chooseChatCall (projectFiles : Option (List (String × String)))
    (fileTree : Option (List String))
    (chatOutcome chatWithFilesOutcome : Except String String) : Except String String :=
  match projectFiles, fileTree with
  | some _, some ft => if ft.isEmpty then chatWithFilesOutcome else chatOutcome
  | _, _ => chatWithFilesOutcome

/-- sendMessage from the messages server functions: insert the user
message, compute the assistant reply via chooseChatCall, then insert the
assistant message.  A thrown chat error propagates after the user message
was already persisted. -/
def sendMessage (db : DB) (sessionId content : String)
    (projectFiles : Option (List (String × String))) (fileTree : Option (List String))
    (freshUserId freshAsstId : String) (nowU nowA : Nat)
    (chatOutcome chatWithFilesOutcome : Except String String) :
    Except String (Message × Message) × DB :=
  let userMessage : Message :=
    { id := freshUserId, sessionId := sessionId, role := .user
      content := content, createdAt := nowU }
  let db1 := { db with messages := db.messages ++ [userMessage] }
  match chooseChatCall projectFiles fileTree chatOutcome chatWithFilesOutcome with
  | .error e => (.error e, db1)
  | .ok resp =>
      let assistantMessage : Message :=
        { id := freshAsstId, sessionId := sessionId, role := .assistant
          content := resp, createdAt := nowA }
      let db2 := { db1 with messages := db1.messages ++ [assistantMessage] }
      (.ok (userMessage, assistantMessage), db2)

/-- Module-level mutable state of webcontainer-editor.tsx: the cached
container (webContainerInstance), whether the boot promise has been created
(webContainerPromise), and how many times WebContainer.boot ran. -/
structure WCState where
  inst : Option Nat
  promisePending : Bool
  boots : Nat
  deriving DecidableEq, Repr

/-- Events against the singleton: a getWebContainer call, or the fulfilment
of the boot promise delivering container v.  JS runs each synchronously. -/
inductive WCEvent where
  | call
  | resolve (v : Nat)
  deriving DecidableEq, Repr

/-- What a getWebContainer call hands back: the cached container, or the
(unique) boot promise that later fulfils with the container. -/
inductive WCRet where
  | readyInst (v : Nat)
  | pendingPromise
  deriving DecidableEq, Repr

/-- Initial module state: no container, no promise, no boots. -/
def wcInit : WCState := ⟨none, false, 0⟩

/-- One step of the getWebContainer state machine, following the source: a
call returns the instance if cached, else the promise if pending, else
invokes WebContainer.boot (counted) and stores the promise; the promise
fulfilment caches the instance. -/
def wcStep : WCState → WCEvent → WCState × Option WCRet
  | st, .call =>
      match st.inst with
      | some v => (st, some (.readyInst v))
      | none =>
          if st.promisePending then (st, some .pendingPromise)
          else ({ st with promisePending := true, boots := st.boots + 1 },
                some .pendingPromise)
  | st, .resolve v =>
      if st.promisePending && st.inst.isNone then ({ st with inst := some v }, none)
      else (st, none)

/-- Run a sequence of events, collecting the values returned to callers. -/
def wcRun : WCState → List WCEvent → WCState × List WCRet
  | st, [] => (st, [])
  | st, e :: es =>
      let p := wcStep st e
      let q := wcRun p.1 es
      (q.1, p.2.toList ++ q.2)

/-- JS whitespace as recognised by String.prototype.trim (ASCII subset:
tab through carriage return, and space). -/
def jsIsWs (c : Char) : Bool :=
  c == ' ' || (9 ≤ c.toNat && c.toNat ≤ 13)

/-- JS String.prototype.trim, computed on the character list. -/
def jsTrim (s : String) : String :=
  String.mk (((s.toList.dropWhile jsIsWs).reverse.dropWhile jsIsWs).reverse)

/-- JS String.prototype.includes for a one-character needle. -/
def jsContainsChar (s : String) (c : Char) : Bool :=
  s.toList.any (· == c)

/-- JS String.prototype.endsWith for the one-character suffix slash. -/
def jsEndsWithSlash (s : String) : Bool :=
  s.toList.getLast? == some '/'

/-- JS String.prototype.startsWith. -/
def jsStartsWith (s t : String) : Bool :=
  List.isPrefixOf t.toList s.toList

/-- JS String.prototype.slice(n): drop the first n units (paths here are
ASCII, so characters and UTF-16 units coincide). -/
def jsDropChars (s : String) (n : Nat) : String :=
  String.mk (s.toList.drop n)

/-- JS String.prototype.replace of one trailing slash: drop the last
character. -/
def jsDropLastChar (s : String) : String :=
  String.mk s.toList.dropLast

/-- JS String.prototype.split on the slash separator: the empty string
splits to one empty segment, and a trailing slash yields a trailing empty
segment, as in JS. -/
def jsSplitSlash (s : String) : List String :=
  let r := s.toList.foldl
    (fun (p : List String × List Char) c =>
      if c == '/' then (p.1 ++ [String.mk p.2.reverse], []) else (p.1, c :: p.2))
    ([], [])
  r.1 ++ [String.mk r.2.reverse]

/-- A file of a problem's embedded project (ProjectFile in db/schema.ts). -/
structure ProjectFile where
  path : String
  language : String
  content : String
  deriving DecidableEq, Repr

/-- A node of the WebContainer FileSystemTree: a file with contents, or a
directory whose children are an insertion-ordered key/node association
list (modelling a JS object). -/
inductive FSNode where
  | file (contents : String) : FSNode
  | directory (children : List (String × FSNode)) : FSNode

/-- A FileSystemTree: the children map of the root. -/
abbrev FSTree := List (String × FSNode)

/-- JS object property write: overwrite in place if present, else append. -/
def setKey : FSTree → String → FSNode → FSTree
  | [], k, v => [(k, v)]
  | (k', v') :: rest, k, v =>
      if k' == k then (k', v) :: rest else (k', v') :: setKey rest k v

/-- JS object property read. -/
def getKey : FSTree → String → Option FSNode
  | [], _ => none
  | (k', v') :: rest, k => if k' == k then some v' else getKey rest k

/-- The inner loop of projectFilesToFileSystemTree for one file: walk the
path parts, writing a file node at the last part and ensuring directory
nodes at earlier parts; when an earlier part holds a file node the source
does not descend (current stays), so the remaining parts continue at the
same level. -/
def insertPath : FSTree → List String → String → FSTree
  | t, [], _ => t
  | t, [p], c => setKey t p (.file c)
  | t, p :: q :: rs, c =>
      match getKey t p with
      | some (.directory d) => setKey t p (.directory (insertPath d (q :: rs) c))
      | some (.file _) => insertPath t (q :: rs) c
      | none => setKey t p (.directory (insertPath [] (q :: rs) c))

/-- projectFilesToFileSystemTree from src/lib/webcontainer-utils.ts: fold
the files into a tree, splitting each path on slashes. -/
def projectFilesToFileSystemTree (files : List ProjectFile) : FSTree :=
  files.foldl (fun t f => insertPath t (jsSplitSlash f.path) f.content) []

/-- Follow a segment path down the tree to a node, descending only through
directory nodes. -/
def nodeAt : FSTree → List String → Option FSNode
  | _, [] => none
  | t, [p] => getKey t p
  | t, p :: q :: rs =>
      match getKey t p with
      | some (.directory d) => nodeAt d (q :: rs)
      | _ => none

/-- The content the claim expects at a path: that of the last listed file
with this segment path. -/
def lastContentFor (files : List ProjectFile) (p : List String) : Option String :=
  ((files.filter fun f => jsSplitSlash f.path == p).getLast?).map ProjectFile.content

/-- No nonempty proper prefix of the path holds a file node. -/
def DirsAlong (t : FSTree) (p : List String) : Prop :=
  ∀ q, q ≠ [] → q <+: p → q ≠ p → ∀ c, nodeAt t q ≠ some (.file c)

/-- A record extracted from the tar archive (TarFile in
src/lib/webcontainer-utils.ts); content is the raw byte list. -/
structure TarFile where
  path : String
  content : List Nat
  isDirectory : Bool
  deriving DecidableEq, Repr

/-- Clamp a JS TypedArray slice index: negative indices count from the
end, and the result is clamped to the array bounds. -/
def jsIndexClamp (len : Nat) (i : Int) : Nat :=
  if i < 0 then ((len : Int) + i).toNat else min i.toNat len

/-- JS TypedArray.slice(start, stop) on a byte list. -/
def jsSlice (data : List Nat) (start stop : Int) : List Nat :=
  let s := jsIndexClamp data.length start
  let e := jsIndexClamp data.length stop
  (data.drop s).take (e - s)

/-- Decode header bytes to a string; tar headers are ASCII, so bytes map
to characters directly (multi-byte UTF-8 is not modelled). -/
def decodeBytes (bs : List Nat) : String :=
  String.mk (bs.map Char.ofNat)

/-- JS parseInt(s, 8): optional sign, then leading octal digits; none
parsed means NaN, modelled as none. -/
def parseIntOctal (s : String) : Option Int :=
  let cs := s.toList
  let sign : Int := match cs with
    | '-' :: _ => -1
    | _ => 1
  let body := match cs with
    | '-' :: t => t
    | '+' :: t => t
    | _ => cs
  let digits := body.takeWhile fun c => 48 ≤ c.toNat && c.toNat ≤ 55
  if digits.isEmpty then none
  else some (sign * (digits.foldl (fun acc c => acc * 8 + (c.toNat - 48)) (0 : Nat) : Nat))

/-- Math.ceil(size / 512) * 512 on an integer size, as JS computes it. -/
def jsCeilTo512 (size : Int) : Int :=
  -((-size).fdiv 512) * 512

/-- What one iteration of the extractTar while loop does: stop (all-zero
header), or continue at the advanced offset with the possibly updated root
prefix, possibly pushing one extracted file. -/
inductive TarIterResult where
  | stop : TarIterResult
  | next (offset2 : Int) (rootPref1 : String) (pushed : Option TarFile) : TarIterResult
  deriving DecidableEq, Repr

/-- One iteration of the extractTar while loop from
src/lib/webcontainer-utils.ts, translated step for step: read the 512-byte
header, check for the all-zero end block, decode the name and octal size
fields, compute the type flag and the offset advance (512 header bytes
plus the size rounded up to a 512 multiple), maintain the stripped root
prefix, and extract the record unless its name or path is skipped. -/
def extractTarIter (tar : List Nat) (offset : Int) (rootPref : String) : TarIterResult :=
  let header := jsSlice tar offset (offset + 512)
  if header.all (· == 0) then .stop
  else
    let name := decodeBytes ((header.take 100).takeWhile (· != 0))
    let sizeBytes := (header.drop 124).take 12
    let sizeStr := jsTrim (decodeBytes (sizeBytes.takeWhile (· != 0)))
    let size : Int := (parseIntOctal sizeStr).getD 0
    let typeFlag := header.getD 156 0
    let isDir := typeFlag == 53 || jsEndsWithSlash name
    let offset1 := offset + 512
    let paddedSize := jsCeilTo512 size
    let offset2 := offset1 + paddedSize
    if name == ("") then .next offset2 rootPref none
    else
      let rootPref1 :=
        if rootPref == ("") && jsContainsChar name '/' then
          ((jsSplitSlash name).headD ("")) ++ "/"
        else rootPref
      let relativePath :=
        if jsStartsWith name rootPref1 then jsDropChars name rootPref1.length else name
      if relativePath == ("") || relativePath == ("/") || relativePath == ("./") then
        .next offset2 rootPref1 none
      else
        let stripped :=
          if jsEndsWithSlash relativePath then jsDropLastChar relativePath
          else relativePath
        let contentBytes :=
          if size > 0 then jsSlice tar offset1 (offset1 + size) else []
        .next offset2 rootPref1
          (some { path := stripped, content := contentBytes, isDirectory := isDir })

/-- The while loop of extractTar: iterate extractTarIter while the offset
is below the archive length; fuel bounds the number of iterations the
model will run (the JS loop has no such bound), and none means the fuel
ran out before the loop finished. -/
def extractTarGo (tar : List Nat) : Nat → Int → String → List TarFile →
    Option (List TarFile)
  | 0, _, _, _ => none
  | fuel + 1, offset, rootPref, acc =>
      if offset < (tar.length : Int) then
        match extractTarIter tar offset rootPref with
        | .stop => some acc
        | .next offset2 rootPref1 none => extractTarGo tar fuel offset2 rootPref1 acc
        | .next offset2 rootPref1 (some f) =>
            extractTarGo tar fuel offset2 rootPref1 (acc ++ [f])
      else some acc

/-- extractTar entry point: start at offset 0 with empty root prefix. -/
def extractTar (tar : List Nat) (fuel : Nat) : Option (List TarFile) :=
  extractTarGo tar fuel 0 ("") []

/-- A 512-byte header block whose size field holds the octal string -1000
(bytes 45, 49, 48, 48, 48 at indices 124 to 128) and whose name field is
the single byte f: parseInt gives -512, so the loop advances the offset by
512 + (-512) = 0. -/
def badSizeBlock : List Nat :=
  [102] ++ List.replicate 123 0 ++ [45, 49, 48, 48, 48] ++ List.replicate 383 0

/-- A concrete problem row used to instantiate theorems. -/
def wProblem : Problem :=
  { id := "p1", title := "t", description := "d", codebaseContext := none
    difficulty := .medium, category := "c", createdAt := 0 }

/-- A concrete session row used to instantiate theorems. -/
def wSession : Session :=
  { id := "s1", candidateName := "n", candidateEmail := "e", problemId := "p1"
    status := .pending, solution := none, evaluationSettings := none
    startedAt := none, completedAt := none, createdAt := 0 }

/-- A concrete message row used to instantiate theorems. -/
def wMessage : Message :=
  { id := "m1", sessionId := "s1", role := .user, content := "q", createdAt := 1 }

/-- A concrete analysis row used to instantiate theorems. -/
def wAnalysis : Analysis :=
  { id := "a1", sessionId := "s1", summary := "s", questionCount := 1
    qualityScore := 5, dimensionScores := [], strengths := [], improvements := []
    createdAt := 2 }

/-- A concrete, referentially intact database used to instantiate theorems. -/
def wDB : DB :=
  { problems := [wProblem], sessions := [wSession]
    messages := [wMessage], analyses := [wAnalysis] }

/-- A problem row whose description is the empty string (used for the C5
counterexample: present but JS-falsy). -/
def emptyDescProblem : Problem :=
  { id := "p1", title := "t", description := "", codebaseContext := none
    difficulty := .medium, category := "c", createdAt := 0 }

/-- Database with a session whose problem exists and has an empty (but
non-null) description. -/
def emptyDescDB : DB :=
  { problems := [emptyDescProblem], sessions := [wSession], messages := [], analyses := [] }

/-- A concrete analysis result used to instantiate theorems. -/
def wResult : AnalysisResult :=
  { summary := "ok", questionCount := 2, qualityScore := 7
    dimensionScores := [], strengths := [], improvements := [] }

/-- A concrete project file list used to instantiate theorems (the first
path occurs twice; the later entry wins). -/
def wFiles : List ProjectFile :=
  [{ path := "src/a.ts", language := "ts", content := "A" },
   { path := "src/b.ts", language := "ts", content := "B" },
   { path := "src/a.ts", language := "ts", content := "A2" }]

/-! Helper lemmas about the cascade deletes. -/

theorem refIntact_filter_analyses {db : DB} (f : Analysis → Bool) (h : RefIntact db) :
    RefIntact { db with analyses := db.analyses.filter f } := by
  obtain ⟨hm, ha, hs⟩ := h
  exact ⟨hm, fun a hmem => ha a (List.mem_filter.mp hmem).1, hs⟩

theorem refIntact_filter_messages {db : DB} (f : Message → Bool) (h : RefIntact db) :
    RefIntact { db with messages := db.messages.filter f } := by
  obtain ⟨hm, ha, hs⟩ := h
  exact ⟨fun m hmem => hm m (List.mem_filter.mp hmem).1, ha, hs⟩

theorem deleteSessionDeps_sessions (sids : List String) (db : DB) :
    (deleteSessionDeps db sids).sessions = db.sessions := by
  induction sids generalizing db with
  | nil => rfl
  | cons sid rest ih =>
    simp only [deleteSessionDeps]
    exact ih _

theorem deleteSessionDeps_problems (sids : List String) (db : DB) :
    (deleteSessionDeps db sids).problems = db.problems := by
  induction sids generalizing db with
  | nil => rfl
  | cons sid rest ih =>
    simp only [deleteSessionDeps]
    exact ih _

theorem deleteSessionDeps_messages_mem (sids : List String) (db : DB) (m : Message) :
    m ∈ (deleteSessionDeps db sids).messages ↔
      m ∈ db.messages ∧ ∀ sid ∈ sids, m.sessionId ≠ sid := by
  induction sids generalizing db with
  | nil => simp [deleteSessionDeps]
  | cons sid rest ih =>
    simp only [deleteSessionDeps]
    rw [ih]
    simp only [List.mem_filter, List.forall_mem_cons, bne_iff_ne, ne_eq,
      decide_not, Bool.not_eq_eq_eq_not, Bool.not_true, decide_eq_false_iff_not]
    tauto

theorem deleteSessionDeps_analyses_mem (sids : List String) (db : DB) (a : Analysis) :
    a ∈ (deleteSessionDeps db sids).analyses ↔
      a ∈ db.analyses ∧ ∀ sid ∈ sids, a.sessionId ≠ sid := by
  induction sids generalizing db with
  | nil => simp [deleteSessionDeps]
  | cons sid rest ih =>
    simp only [deleteSessionDeps]
    rw [ih]
    simp only [List.mem_filter, List.forall_mem_cons, bne_iff_ne, ne_eq,
      decide_not, Bool.not_eq_eq_eq_not, Bool.not_true, decide_eq_false_iff_not]
    tauto

theorem deleteSessionDepsTrace_refIntact (sids : List String) (db : DB) (h : RefIntact db) :
    ∀ st ∈ deleteSessionDepsTrace db sids, RefIntact st := by
  induction sids generalizing db with
  | nil =>
    intro st hst
    simp [deleteSessionDepsTrace] at hst
  | cons sid rest ih =>
    intro st hst
    simp only [deleteSessionDepsTrace, List.mem_cons] at hst
    have h1 : RefIntact { db with analyses := db.analyses.filter fun a => a.sessionId != sid } :=
      refIntact_filter_analyses _ h
    have h2 := refIntact_filter_messages (fun m => m.sessionId != sid) h1
    rcases hst with rfl | rfl | hst
    · exact h1
    · exact h2
    · exact ih _ h2 st hst

theorem deleteSessionDeps_refIntact (sids : List String) (db : DB) (h : RefIntact db) :
    RefIntact (deleteSessionDeps db sids) := by
  obtain ⟨hm, ha, hs⟩ := h
  refine ⟨?_, ?_, ?_⟩
  · intro m hmem
    rw [deleteSessionDeps_messages_mem] at hmem
    rw [deleteSessionDeps_sessions]
    exact hm m hmem.1
  · intro a hmem
    rw [deleteSessionDeps_analyses_mem] at hmem
    rw [deleteSessionDeps_sessions]
    exact ha a hmem.1
  · rw [deleteSessionDeps_sessions, deleteSessionDeps_problems]
    exact hs

theorem mem_sids {db : DB} {pid : String} {s : Session}
    (hs : s ∈ db.sessions) (hp : s.problemId = pid) :
    s.id ∈ (db.sessions.filter fun t => t.problemId == pid).map Session.id :=
  List.mem_map.mpr ⟨s, List.mem_filter.mpr ⟨hs, by simp [hp]⟩, rfl⟩

/-- C1 counterexample: from the empty database, createSession followed by
completeSession leaves session s1 completed, and a further startSession
call moves it back to active — a backwards step completed to active, so
the claimed forward-only transition order does not hold for every
reachable call sequence. -/
theorem c1_counterexample :
    statusOf (runSessionOps emptyDB
        [.create c1Data "s1" 0, .complete "s1" 1]) "s1" = some .completed ∧
    statusOf (runSessionOps emptyDB
        [.create c1Data "s1" 0, .complete "s1" 1, .start "s1" 2]) "s1" = some .active := by
  exact ⟨rfl, rfl⟩

/-- C1 (amended): startSession sets the status of every session row with
the given id to active, completeSession sets it to completed, rows with
other ids are left unchanged, and createSession without an explicit status
inserts a pending session; the updates are unguarded, so (per the
counterexample) a completed session can return to active. -/
theorem c1_amended (db : DB) (id : String) (now : Nat) :
    (∀ s ∈ (startSession db id now).2.sessions, s.id = id → s.status = .active) ∧
    (∀ s ∈ (completeSession db id now).2.sessions, s.id = id → s.status = .completed) ∧
    (∀ s ∈ (startSession db id now).2.sessions, s.id ≠ id → s ∈ db.sessions) ∧
    (∀ s ∈ (completeSession db id now).2.sessions, s.id ≠ id → s ∈ db.sessions) ∧
    (∀ data freshId cnow, (data : NewSession).status = none →
      ((createSession db data freshId cnow).1).status = .pending) := by
  refine ⟨?_, ?_, ?_, ?_, ?_⟩
  · intro s hs hid
    simp only [startSession] at hs
    obtain ⟨t, ht, rfl⟩ := List.mem_map.mp hs
    by_cases h : t.id = id
    · simp [h]
    · simp only [beq_iff_eq, if_neg h] at hid ⊢
      exact absurd hid h
  · intro s hs hid
    simp only [completeSession] at hs
    obtain ⟨t, ht, rfl⟩ := List.mem_map.mp hs
    by_cases h : t.id = id
    · simp [h]
    · simp only [beq_iff_eq, if_neg h] at hid ⊢
      exact absurd hid h
  · intro s hs hid
    simp only [startSession] at hs
    obtain ⟨t, ht, rfl⟩ := List.mem_map.mp hs
    by_cases h : t.id = id
    · simp only [beq_iff_eq, if_pos h] at hid
      exact absurd h (by simpa using hid)
    · simpa [beq_iff_eq, if_neg h] using ht
  · intro s hs hid
    simp only [completeSession] at hs
    obtain ⟨t, ht, rfl⟩ := List.mem_map.mp hs
    by_cases h : t.id = id
    · simp only [beq_iff_eq, if_pos h] at hid
      exact absurd h (by simpa using hid)
    · simpa [beq_iff_eq, if_neg h] using ht
  · intro data freshId cnow hnone
    simp [createSession, hnone]

/-- C1 amended witness at a concrete database. -/
theorem c1_amended_witness :
    ∀ s ∈ (startSession wDB "s1" 5).2.sessions, s.id = "s1" → s.status = .active :=
  (c1_amended wDB "s1" 5).1

/-- C2: both cascade deletes remove dependents before parents.  Given a
referentially intact database, every intermediate state of deleteSession
and of deleteProblem is referentially intact, and afterwards no analysis,
message or session of the deleted session remains, respectively no
session of the deleted problem nor any message or analysis of any of
that problem's sessions. -/
theorem c2_cascade_deletes (db : DB) (sid pid : String) (h : RefIntact db) :
    (∀ st ∈ deleteSessionTrace db sid, RefIntact st) ∧
    (∀ a ∈ (deleteSession db sid).2.analyses, a.sessionId ≠ sid) ∧
    (∀ m ∈ (deleteSession db sid).2.messages, m.sessionId ≠ sid) ∧
    (∀ s ∈ (deleteSession db sid).2.sessions, s.id ≠ sid) ∧
    (∀ st ∈ deleteProblemTrace db pid, RefIntact st) ∧
    (∀ p ∈ (deleteProblem db pid).2.problems, p.id ≠ pid) ∧
    (∀ s ∈ (deleteProblem db pid).2.sessions, s.problemId ≠ pid) ∧
    (∀ m ∈ (deleteProblem db pid).2.messages, ∀ s ∈ db.sessions,
      s.problemId = pid → m.sessionId ≠ s.id) ∧
    (∀ a ∈ (deleteProblem db pid).2.analyses, ∀ s ∈ db.sessions,
      s.problemId = pid → a.sessionId ≠ s.id) := by
  obtain ⟨hm, ha, hs⟩ := h
  refine ⟨?_, ?_, ?_, ?_, ?_, ?_, ?_, ?_, ?_⟩
  · -- deleteSession trace integrity
    intro st hst
    simp only [deleteSessionTrace, List.mem_cons, List.not_mem_nil, or_false] at hst
    rcases hst with rfl | rfl | rfl | rfl
    · exact ⟨hm, ha, hs⟩
    · exact refIntact_filter_analyses _ ⟨hm, ha, hs⟩
    · exact refIntact_filter_messages _ (refIntact_filter_analyses _ ⟨hm, ha, hs⟩)
    · refine ⟨?_, ?_, ?_⟩
      · intro m hmem
        have hmm := List.mem_filter.mp hmem
        have hne : m.sessionId ≠ sid := by simpa [bne_iff_ne] using hmm.2
        obtain ⟨s, hsmem, hsid⟩ := hm m hmm.1
        exact ⟨s, List.mem_filter.mpr ⟨hsmem, by simp [bne_iff_ne, hsid, hne]⟩, hsid⟩
      · intro a hmem
        have hmm := List.mem_filter.mp hmem
        have hne : a.sessionId ≠ sid := by simpa [bne_iff_ne] using hmm.2
        obtain ⟨s, hsmem, hsid⟩ := ha a hmm.1
        exact ⟨s, List.mem_filter.mpr ⟨hsmem, by simp [bne_iff_ne, hsid, hne]⟩, hsid⟩
      · intro s hmem
        exact hs s (List.mem_filter.mp hmem).1
  · intro a hmem
    have hmm := List.mem_filter.mp hmem
    simpa [bne_iff_ne] using hmm.2
  · intro m hmem
    have hmm := List.mem_filter.mp hmem
    simpa [bne_iff_ne] using hmm.2
  · intro s hmem
    have hmm := List.mem_filter.mp hmem
    simpa [bne_iff_ne] using hmm.2
  · -- deleteProblem trace integrity
    intro st hst
    simp only [deleteProblemTrace, List.mem_cons, List.mem_append, List.not_mem_nil,
      or_false] at hst
    have hdb1 := deleteSessionDeps_refIntact
      ((db.sessions.filter fun s => s.problemId == pid).map Session.id) db ⟨hm, ha, hs⟩
    rcases hst with (rfl | hst) | (rfl | rfl)
    · exact ⟨hm, ha, hs⟩
    · exact deleteSessionDepsTrace_refIntact _ db ⟨hm, ha, hs⟩ st hst
    · -- after deleting the problem's sessions
      obtain ⟨hm1, ha1, hs1⟩ := hdb1
      refine ⟨?_, ?_, ?_⟩
      · intro m hmem
        have hmm := (deleteSessionDeps_messages_mem _ db m).mp hmem
        obtain ⟨s, hsmem, hsid⟩ := hm m hmm.1
        have hsp : s.problemId ≠ pid := by
          intro hp
          exact hmm.2 s.id (mem_sids hsmem hp) hsid.symm
        refine ⟨s, List.mem_filter.mpr ⟨?_, by simp [bne_iff_ne, hsp]⟩, hsid⟩
        rw [deleteSessionDeps_sessions]
        exact hsmem
      · intro a hmem
        have hmm := (deleteSessionDeps_analyses_mem _ db a).mp hmem
        obtain ⟨s, hsmem, hsid⟩ := ha a hmm.1
        have hsp : s.problemId ≠ pid := by
          intro hp
          exact hmm.2 s.id (mem_sids hsmem hp) hsid.symm
        refine ⟨s, List.mem_filter.mpr ⟨?_, by simp [bne_iff_ne, hsp]⟩, hsid⟩
        rw [deleteSessionDeps_sessions]
        exact hsmem
      · intro s hmem
        have hmm := List.mem_filter.mp hmem
        rw [deleteSessionDeps_sessions] at hmm
        rw [deleteSessionDeps_problems]
        exact hs s hmm.1
    · -- final state
      obtain ⟨hm1, ha1, hs1⟩ := hdb1
      refine ⟨?_, ?_, ?_⟩
      · intro m hmem
        have hmm := (deleteSessionDeps_messages_mem _ db m).mp hmem
        obtain ⟨s, hsmem, hsid⟩ := hm m hmm.1
        have hsp : s.problemId ≠ pid := by
          intro hp
          exact hmm.2 s.id (mem_sids hsmem hp) hsid.symm
        refine ⟨s, List.mem_filter.mpr ⟨?_, by simp [bne_iff_ne, hsp]⟩, hsid⟩
        rw [deleteSessionDeps_sessions]
        exact hsmem
      · intro a hmem
        have hmm := (deleteSessionDeps_analyses_mem _ db a).mp hmem
        obtain ⟨s, hsmem, hsid⟩ := ha a hmm.1
        have hsp : s.problemId ≠ pid := by
          intro hp
          exact hmm.2 s.id (mem_sids hsmem hp) hsid.symm
        refine ⟨s, List.mem_filter.mpr ⟨?_, by simp [bne_iff_ne, hsp]⟩, hsid⟩
        rw [deleteSessionDeps_sessions]
        exact hsmem
      · intro s hmem
        have hmm := List.mem_filter.mp hmem
        have hsm := hmm.1
        rw [deleteSessionDeps_sessions] at hsm
        have hsp : s.problemId ≠ pid := by simpa [bne_iff_ne] using hmm.2
        obtain ⟨p, hpmem, hpid⟩ := hs s hsm
        refine ⟨p, List.mem_filter.mpr ⟨?_, by simp [bne_iff_ne, hpid, hsp]⟩, hpid⟩
        rw [deleteSessionDeps_problems]
        exact hpmem
  · intro p hmem
    have hmm := List.mem_filter.mp hmem
    simpa [bne_iff_ne] using hmm.2
  · intro s hmem
    have hmm := List.mem_filter.mp hmem
    simpa [bne_iff_ne] using hmm.2
  · intro m hmem s hsmem hp
    have hmm := (deleteSessionDeps_messages_mem _ db m).mp hmem
    exact hmm.2 s.id (mem_sids hsmem hp)
  · intro a hmem s hsmem hp
    have hmm := (deleteSessionDeps_analyses_mem _ db a).mp hmem
    exact hmm.2 s.id (mem_sids hsmem hp)

/-- C2 witness at a concrete intact database. -/
theorem c2_cascade_deletes_witness :
    RefIntact wDB ∧ ∀ st ∈ deleteSessionTrace wDB "s1", RefIntact st :=
  ⟨by decide, (c2_cascade_deletes wDB "s1" "p1" (by decide)).1⟩

/-! Helper lemmas about the chat tool-calling loop. -/

theorem chatGo_requests_le (responses : Nat → ModelResponse) (fuel iter : Nat) :
    (chatGo responses iter fuel).2 ≤ iter + fuel := by
  induction fuel generalizing iter with
  | zero => simp [chatGo]
  | succ n ih =>
    simp only [chatGo]
    split
    · simp
    · exact le_trans (ih (iter + 1)) (by omega)

theorem chatGo_stops_at_first (responses : Nat → ModelResponse) (fuel iter k : Nat)
    (hk : k < fuel) (hempty : (responses (iter + k)).tool_calls = [])
    (hbefore : ∀ j, j < k → (responses (iter + j)).tool_calls ≠ []) :
    chatGo responses iter fuel
      = (jsOrString (responses (iter + k)).content chatNoContent, iter + k + 1) := by
  induction fuel generalizing iter k with
  | zero => omega
  | succ n ih =>
    simp only [chatGo]
    by_cases h0 : (responses iter).tool_calls.isEmpty
    · have hk0 : k = 0 := by
        by_contra hne
        exact hbefore 0 (by omega) (by simpa using List.isEmpty_iff.mp h0)
      subst hk0
      rw [if_pos h0]
      simp
    · have hkpos : k ≠ 0 := by
        intro hzero
        subst hzero
        simp only [Nat.add_zero] at hempty
        exact h0 (by simp [hempty])
      obtain ⟨k', rfl⟩ : ∃ k', k = k' + 1 := ⟨k - 1, by omega⟩
      rw [if_neg h0]
      have hempty' : (responses (iter + 1 + k')).tool_calls = [] := by
        rw [show iter + 1 + k' = iter + (k' + 1) from by omega]
        exact hempty
      have hbefore' : ∀ j, j < k' → (responses (iter + 1 + j)).tool_calls ≠ [] := by
        intro j hj
        rw [show iter + 1 + j = iter + (j + 1) from by omega]
        exact hbefore (j + 1) (by omega)
      rw [ih (iter + 1) k' (by omega) hempty' hbefore']
      rw [show iter + 1 + k' = iter + (k' + 1) from by omega]

theorem chatGo_cap (responses : Nat → ModelResponse) (fuel iter : Nat)
    (hall : ∀ j, j < fuel → (responses (iter + j)).tool_calls ≠ []) :
    chatGo responses iter fuel = (chatFallback, iter + fuel) := by
  induction fuel generalizing iter with
  | zero => simp [chatGo]
  | succ n ih =>
    simp only [chatGo]
    have h0 : ¬(responses iter).tool_calls.isEmpty = true := by
      have := hall 0 (by omega)
      simp only [Nat.add_zero] at this
      simpa [List.isEmpty_iff] using this
    rw [if_neg h0]
    have hall' : ∀ j, j < n → (responses (iter + 1 + j)).tool_calls ≠ [] := by
      intro j hj
      rw [show iter + 1 + j = iter + (j + 1) from by omega]
      exact hall (j + 1) (by omega)
    rw [ih (iter + 1) hall']
    congr 1
    omega

/-- C3: the chat tool-calling loop issues at most maxIterations (10)
chat-completion requests; when the first k responses carry tool calls and
response k (k below the cap) does not, exactly k + 1 requests are made and
the loop returns that response's content (the fixed no-content string when
the content is null or empty); and when the first 10 responses all carry
tool calls it stops and returns the fixed fallback string after exactly 10
requests. -/
theorem c3_chat_loop_bounded (responses : Nat → ModelResponse) :
    (chat responses).2 ≤ maxIterations ∧
    (∀ k, k < maxIterations → (responses k).tool_calls = [] →
      (∀ j, j < k → (responses j).tool_calls ≠ []) →
      chat responses = (jsOrString (responses k).content chatNoContent, k + 1)) ∧
    ((∀ j, j < maxIterations → (responses j).tool_calls ≠ []) →
      chat responses = (chatFallback, maxIterations)) := by
  refine ⟨?_, ?_, ?_⟩
  · simpa [chat] using chatGo_requests_le responses maxIterations 0
  · intro k hk hempty hbefore
    have h := chatGo_stops_at_first responses maxIterations 0 k hk
      (by simpa using hempty) (fun j hj => by simpa using hbefore j hj)
    simpa [chat] using h
  · intro hall
    have h := chatGo_cap responses maxIterations 0 (fun j hj => by simpa using hall j hj)
    simpa [chat] using h

/-- C3 witness: a response stream whose first response has content and no
tool calls makes chat return that content after one request. -/
theorem c3_chat_loop_bounded_witness :
    chat (fun _ => { content := some "hi", tool_calls := [] }) = ("hi", 1) := by
  have h := (c3_chat_loop_bounded fun _ => { content := some "hi", tool_calls := [] }).2.1
    0 (by decide) rfl (fun j hj => absurd hj (by omega))
  simpa using h

/-! Helper lemmas about generateAnalysis. -/

theorem generateAnalysis_preserves_unique (db : DB) (sid : String) (r : AnalysisResult)
    (fid : String) (now : Nat) (h : AnalysesUnique db) :
    AnalysesUnique (generateAnalysis db sid r fid now).2 := by
  simp only [generateAnalysis, AnalysesUnique]
  split
  · exact h
  · split
    · next hempty =>
      refine List.pairwise_append.mpr ⟨h, List.pairwise_singleton _ _, ?_⟩
      intro a hmem b hb
      simp only [List.mem_singleton] at hb
      subst hb
      have hni := (List.filter_eq_nil_iff.mp (List.isEmpty_iff.mp hempty)) a hmem
      simpa using hni
    · refine List.pairwise_map.mpr (h.imp ?_)
      intro a b hab
      by_cases ha : a.sessionId == sid <;> by_cases hb : b.sessionId == sid <;>
        simp_all

theorem runGenerateAnalysis_preserves_unique (calls : List GenCall) (db : DB)
    (h : AnalysesUnique db) : AnalysesUnique (runGenerateAnalysis db calls) := by
  induction calls generalizing db with
  | nil => exact h
  | cons c rest ih =>
    exact ih _ (generateAnalysis_preserves_unique db c.sessionId c.result c.freshId c.now h)

/-- C4: generateAnalysis is an upsert keyed on the session.  When a row for
the session already exists it updates rows in place (row count and the
sessionId column are unchanged); when none exists and the call succeeds it
appends exactly one new row for the session; a thrown error leaves the
database unchanged; and under at most one analysis per session beforehand,
any sequence of generateAnalysis calls keeps at most one analysis per
session. -/
theorem c4_analysis_upsert (db : DB) (c : GenCall) (h : AnalysesUnique db) :
    AnalysesUnique (generateAnalysis db c.sessionId c.result c.freshId c.now).2 ∧
    ((db.analyses.filter fun a => a.sessionId == c.sessionId) ≠ [] →
      (generateAnalysis db c.sessionId c.result c.freshId c.now).2.analyses.length
          = db.analyses.length ∧
      (generateAnalysis db c.sessionId c.result c.freshId c.now).2.analyses.map
          Analysis.sessionId = db.analyses.map Analysis.sessionId) ∧
    ((db.analyses.filter fun a => a.sessionId == c.sessionId) = [] →
      (∃ v, (generateAnalysis db c.sessionId c.result c.freshId c.now).1 = .ok v) →
      ∃ row, (generateAnalysis db c.sessionId c.result c.freshId c.now).2.analyses
          = db.analyses ++ [row] ∧ row.sessionId = c.sessionId) ∧
    (∀ e, (generateAnalysis db c.sessionId c.result c.freshId c.now).1 = .error e →
      (generateAnalysis db c.sessionId c.result c.freshId c.now).2 = db) ∧
    (∀ calls, AnalysesUnique (runGenerateAnalysis db calls)) := by
  refine ⟨generateAnalysis_preserves_unique db c.sessionId c.result c.freshId c.now h,
    ?_, ?_, ?_, fun calls => runGenerateAnalysis_preserves_unique calls db h⟩
  · intro hne
    simp only [generateAnalysis]
    split
    · exact ⟨rfl, rfl⟩
    · split
      · next hempty =>
        exact absurd (List.isEmpty_iff.mp hempty) hne
      · constructor
        · simp
        · rw [List.map_map]
          apply List.map_congr_left
          intro a _
          simp only [Function.comp_apply]
          split <;> rfl
  · intro hempty
    simp only [generateAnalysis]
    split
    · rintro ⟨v, hv⟩
      simp at hv
    · split
      · intro _
        exact ⟨_, rfl, rfl⟩
      · next hnem =>
        exact absurd hempty (by simpa [List.isEmpty_iff] using hnem)
  · intro e
    simp only [generateAnalysis]
    split
    · intro _
      rfl
    · split
      · intro he
        simp at he
      · intro he
        simp at he

/-- C4 witness at a concrete database that already has an analysis. -/
theorem c4_analysis_upsert_witness :
    AnalysesUnique wDB ∧
      AnalysesUnique (generateAnalysis wDB "s1" wResult "a2" 3).2 :=
  ⟨by decide, (c4_analysis_upsert wDB ⟨"s1", wResult, "a2", 3⟩ (by decide)).1⟩

/-- C5 counterexample: in emptyDescDB the session s1 exists and its problem
row exists with a present (non-null) description, yet generateAnalysis
throws Session or problem not found, because the empty-string description
is JS-falsy; so the error is not raised exactly when the session or the
description is absent, refuting the claim as stated. -/
theorem c5_counterexample :
    ((emptyDescDB.sessions.filter fun s => s.id == "s1").head? = some wSession) ∧
    ((getProblem emptyDescDB wSession.problemId).map Problem.description = some ("")) ∧
    ((generateAnalysis emptyDescDB "s1" wResult "a1" 0).1
      = .error ("Session or problem not found")) :=
  ⟨rfl, rfl, rfl⟩

/-- C5 (amended): generateAnalysis fails, and with exactly the error
message Session or problem not found, precisely when no session row with
the id exists, or the first such row's problem row is missing, or that
problem's description is the empty string; and in the error case the
returned database equals the input database, so the analyses table is
unchanged. -/
theorem c5_amended (db : DB) (sid : String) (r : AnalysisResult) (fid : String) (now : Nat) :
    ((∃ e, (generateAnalysis db sid r fid now).1 = .error e) ↔
      ((db.sessions.filter fun s => s.id == sid).head? = none ∨
       ∃ s, (db.sessions.filter fun t => t.id == sid).head? = some s ∧
         (getProblem db s.problemId = none ∨
          ∃ p, getProblem db s.problemId = some p ∧ p.description = ""))) ∧
    (∀ e, (generateAnalysis db sid r fid now).1 = .error e →
      e = "Session or problem not found") ∧
    ((∃ e, (generateAnalysis db sid r fid now).1 = .error e) →
      (generateAnalysis db sid r fid now).2 = db) := by
  rcases hcase : (db.sessions.filter fun s => s.id == sid).head? with _ | s
  · have heq : generateAnalysis db sid r fid now
        = (.error ("Session or problem not found"), db) := by
      simp only [generateAnalysis]
      rw [List.head?_map, hcase]
      rfl
    rw [heq]
    refine ⟨?_, ?_, fun _ => rfl⟩
    · simp [hcase]
    · intro e he
      simpa using he.symm
  · rcases hp : (db.problems.filter fun p => p.id == s.problemId).head? with _ | p
    · have heq : generateAnalysis db sid r fid now
          = (.error ("Session or problem not found"), db) := by
        have hp' : db.problems.find? (fun p => p.id == s.problemId) = none := by
          simpa using hp
        simp only [generateAnalysis]
        rw [List.head?_map, hcase]
        simp [hp', jsFalsyStr]
      rw [heq]
      refine ⟨?_, ?_, fun _ => rfl⟩
      · constructor
        · intro _
          exact .inr ⟨s, hcase, .inl hp⟩
        · intro _
          exact ⟨_, rfl⟩
      · intro e he
        simpa using he.symm
    · by_cases hd : p.description = ""
      · have heq : generateAnalysis db sid r fid now
            = (.error ("Session or problem not found"), db) := by
          have hp' : db.problems.find? (fun p => p.id == s.problemId) = some p := by
            simpa using hp
          simp only [generateAnalysis]
          rw [List.head?_map, hcase]
          simp [hp', jsFalsyStr, hd]
        rw [heq]
        refine ⟨?_, ?_, fun _ => rfl⟩
        · constructor
          · intro _
            exact .inr ⟨s, hcase, .inr ⟨p, hp, hd⟩⟩
          · intro _
            exact ⟨_, rfl⟩
        · intro e he
          simpa using he.symm
      · have hok : ∃ v, (generateAnalysis db sid r fid now).1 = .ok v ∧
            (generateAnalysis db sid r fid now).1 ≠ .error "Session or problem not found" := by
          have hp' : db.problems.find? (fun p => p.id == s.problemId) = some p := by
            simpa using hp
          simp only [generateAnalysis]
          rw [List.head?_map, hcase]
          simp [hp', jsFalsyStr, hd]
          by_cases hE : ∀ a ∈ db.analyses, ¬a.sessionId = sid
          · rw [if_pos hE]
            refine ⟨⟨_, rfl⟩, ?_⟩
            intro hcontra
            simp at hcontra
          · rw [if_neg hE]
            refine ⟨⟨_, rfl⟩, ?_⟩
            intro hcontra
            simp at hcontra
        obtain ⟨v, hv, _⟩ := hok
        refine ⟨?_, ?_, ?_⟩
        · constructor
          · rintro ⟨e, he⟩
            rw [hv] at he
            simp at he
          · rintro (hnone | ⟨s', hs', hrest⟩)
            · rw [hcase] at hnone
              simp at hnone
            · rw [hcase] at hs'
              have hss : s = s' := by simpa using hs'
              subst hss
              rcases hrest with hgp | ⟨p', hp2, hd'⟩
              · rw [show getProblem db s.problemId
                    = (db.problems.filter fun q => q.id == s.problemId).head? from rfl,
                  hp] at hgp
                simp at hgp
              · rw [show getProblem db s.problemId
                    = (db.problems.filter fun q => q.id == s.problemId).head? from rfl,
                  hp] at hp2
                have hpp : p = p' := by simpa using hp2
                subst hpp
                exact absurd hd' hd
        · intro e he
          rw [hv] at he
          simp at he
        · rintro ⟨e, he⟩
          rw [hv] at he
          simp at he

/-- C5 amended witness: the amended error condition evaluated on the
empty-description database. -/
theorem c5_amended_witness :
    (∃ e, (generateAnalysis emptyDescDB "s1" wResult "a1" 0).1 = .error e) ↔
      ((emptyDescDB.sessions.filter fun s => s.id == "s1").head? = none ∨
       ∃ s, (emptyDescDB.sessions.filter fun t => t.id == "s1").head? = some s ∧
         (getProblem emptyDescDB s.problemId = none ∨
          ∃ p, getProblem emptyDescDB s.problemId = some p ∧ p.description = "")) :=
  (c5_amended emptyDescDB "s1" wResult "a1" 0).1

/-! C6: non-termination of the tar parsing loop on a crafted header. -/

set_option maxRecDepth 40000 in
theorem extractTarIter_badSizeBlock :
    extractTarIter badSizeBlock 0 ("")
      = .next 0 ("") (some { path := "f", content := [], isDirectory := false }) := by
  decide

set_option maxRecDepth 40000 in
theorem extractTarGo_badSizeBlock_step (n : Nat) (acc : List TarFile) :
    extractTarGo badSizeBlock (n + 1) 0 ("") acc
      = extractTarGo badSizeBlock n 0 ("")
          (acc ++ [{ path := "f", content := [], isDirectory := false }]) := by
  have hoff : ((0 : Int) < (badSizeBlock.length : Int)) := by decide
  simp only [extractTarGo]
  rw [if_pos hoff, extractTarIter_badSizeBlock]

set_option maxRecDepth 40000 in
/-- C6 (code bug): extractTar does not terminate on every input.  On a
512-byte header block whose size field holds the octal string -1000 the
parsed size is -512, the padded size is -512, and the loop advances the
offset by 512 + (-512) = 0; the header is not all zero, so the early-exit
does not trigger, and the loop never finishes: the fuelled model returns
none for every fuel.  This refutes the claimed 512-byte minimum advance
per iteration for arbitrary input. -/
theorem c6_extractTar_nontermination :
    badSizeBlock.length = 512 ∧
    badSizeBlock.all (· == 0) = false ∧
    (parseIntOctal ("-1000")).getD 0 = -512 ∧
    jsCeilTo512 (-512) = -512 ∧
    ∀ fuel acc, extractTarGo badSizeBlock fuel 0 ("") acc = none := by
  refine ⟨rfl, rfl, rfl, rfl, ?_⟩
  intro fuel
  induction fuel with
  | zero =>
    intro acc
    rfl
  | succ n ih =>
    intro acc
    rw [extractTarGo_badSizeBlock_step]
    exact ih _

/-- C7: problem create/read round trip.  Inserting a fresh NewProblem and
reading it back by the returned id yields the inserted record, whose
title, description, codebaseContext, difficulty and category equal the
input (with the column defaults for omitted difficulty/category);
getProblem is null for an id no row carries, and null after deleteProblem
removed the id. -/
theorem c7_problem_roundtrip (db : DB) (data : NewProblem) (freshId : String) (now : Nat)
    (hfresh : ∀ p ∈ db.problems, p.id ≠ freshId) :
    (getProblem (createProblem db data freshId now).2
        (createProblem db data freshId now).1.id
      = some (createProblem db data freshId now).1) ∧
    ((createProblem db data freshId now).1.title = data.title) ∧
    ((createProblem db data freshId now).1.description = data.description) ∧
    ((createProblem db data freshId now).1.codebaseContext = data.codebaseContext) ∧
    ((createProblem db data freshId now).1.difficulty = data.difficulty.getD .medium) ∧
    ((createProblem db data freshId now).1.category
      = data.category.getD ("javascript-basics")) ∧
    (getProblem db freshId = none) ∧
    (∀ id, getProblem (deleteProblem db id).2 id = none) := by
  have hnil : db.problems.filter (fun p => p.id == freshId) = [] :=
    List.filter_eq_nil_iff.mpr (fun p hp => by simpa using hfresh p hp)
  refine ⟨?_, rfl, rfl, rfl, rfl, rfl, ?_, ?_⟩
  · simp only [getProblem, createProblem, List.filter_append, hnil]
    simp
  · simp [getProblem, hnil]
  · intro id
    have hff : ∀ l : List Problem,
        ((l.filter fun p => p.id != id).filter fun p => p.id == id) = [] := by
      intro l
      rw [List.filter_filter]
      exact List.filter_eq_nil_iff.mpr (fun p _ => by simp)
    simp [getProblem, deleteProblem, hff]

/-- C7 witness: the round trip evaluated on the concrete database. -/
theorem c7_problem_roundtrip_witness :
    (∀ p ∈ wDB.problems, p.id ≠ "p2") ∧
      getProblem (createProblem wDB ⟨"t2", "d2", none, none, none⟩ "p2" 9).2
          (createProblem wDB ⟨"t2", "d2", none, none, none⟩ "p2" 9).1.id
        = some (createProblem wDB ⟨"t2", "d2", none, none, none⟩ "p2" 9).1 :=
  ⟨by decide, (c7_problem_roundtrip wDB ⟨"t2", "d2", none, none, none⟩ "p2" 9 (by decide)).1⟩

/-! C8: the WebContainer boot singleton. -/

/-- Invariant of the getWebContainer state machine: boot ran exactly when
the promise exists, the cached instance implies the promise exists, and
every instance handed to a caller is the currently cached one. -/
def WCInv (st : WCState) (rets : List WCRet) : Prop :=
  (st.boots = if st.promisePending then 1 else 0) ∧
  (st.inst.isSome → st.promisePending = true) ∧
  (∀ v, WCRet.readyInst v ∈ rets → st.inst = some v)

theorem wcStep_inv (st : WCState) (rets0 : List WCRet) (e : WCEvent)
    (h : WCInv st rets0) :
    WCInv (wcStep st e).1 (rets0 ++ (wcStep st e).2.toList) := by
  obtain ⟨h1, h2, h3⟩ := h
  cases e with
  | call =>
    rcases hinst : st.inst with _ | v
    · by_cases hp : st.promisePending = true
      · have hstep : wcStep st .call = (st, some .pendingPromise) := by
          simp [wcStep, hinst, hp]
        rw [hstep]
        refine ⟨h1, h2, ?_⟩
        intro v' hv'
        simp only [Option.toList_some, List.mem_append, List.mem_singleton] at hv'
        rcases hv' with hv' | hv'
        · exact h3 v' hv'
        · exact absurd hv' (by simp)
      · have hstep : wcStep st .call
            = ({ st with promisePending := true, boots := st.boots + 1 },
               some .pendingPromise) := by
          simp [wcStep, hinst, hp]
        rw [hstep]
        have hb : st.boots = 0 := by simpa [hp] using h1
        refine ⟨?_, ?_, ?_⟩
        · simp [hb]
        · intro _
          rfl
        · intro v' hv'
          simp only [Option.toList_some, List.mem_append, List.mem_singleton] at hv'
          rcases hv' with hv' | hv'
          · exact h3 v' hv'
          · exact absurd hv' (by simp)
    · have hstep : wcStep st .call = (st, some (.readyInst v)) := by
        simp [wcStep, hinst]
      rw [hstep]
      refine ⟨h1, h2, ?_⟩
      intro v' hv'
      simp only [Option.toList_some, List.mem_append, List.mem_singleton] at hv'
      rcases hv' with hv' | hv'
      · exact h3 v' hv'
      · have hvv : v' = v := by simpa using hv'
        rw [hinst, hvv]
  | resolve v =>
    by_cases hg : (st.promisePending && st.inst.isNone) = true
    · have hg' : st.promisePending = true ∧ st.inst.isNone = true := by
        simpa using hg
      have hpend : st.promisePending = true := hg'.1
      have hnone : st.inst = none := by
        simpa using hg'.2
      have hstep : wcStep st (.resolve v) = ({ st with inst := some v }, none) := by
        simp [wcStep, hg]
      rw [hstep]
      refine ⟨?_, ?_, ?_⟩
      · simpa [hpend] using h1
      · intro _
        exact hpend
      · intro v' hv'
        simp only [Option.toList_none, List.append_nil] at hv'
        exact absurd (h3 v' hv') (by simp [hnone])
    · have hstep : wcStep st (.resolve v) = (st, none) := by
        simp [wcStep, hg]
      rw [hstep]
      refine ⟨h1, h2, ?_⟩
      intro v' hv'
      simp only [Option.toList_none, List.append_nil] at hv'
      exact h3 v' hv'

theorem wcRun_inv (es : List WCEvent) (st : WCState) (rets0 : List WCRet)
    (h : WCInv st rets0) :
    WCInv (wcRun st es).1 (rets0 ++ (wcRun st es).2) := by
  induction es generalizing st rets0 with
  | nil => simpa [wcRun] using h
  | cons e es ih =>
    have hstep := wcStep_inv st rets0 e h
    have hrest := ih (wcStep st e).1 (rets0 ++ (wcStep st e).2.toList) hstep
    simpa [wcRun, List.append_assoc] using hrest

/-- C8: for every interleaving of getWebContainer calls and the boot
promise fulfilment, WebContainer.boot is invoked at most once, and all
container instances handed to callers are equal (before the promise
resolves a caller gets the unique pending promise, which later yields the
same instance). -/
theorem c8_webcontainer_singleton (es : List WCEvent) :
    (wcRun wcInit es).1.boots ≤ 1 ∧
    ∀ v1 v2, WCRet.readyInst v1 ∈ (wcRun wcInit es).2 →
      WCRet.readyInst v2 ∈ (wcRun wcInit es).2 → v1 = v2 := by
  have h := wcRun_inv es wcInit [] ⟨rfl, by simp [wcInit], by simp⟩
  obtain ⟨h1, h2, h3⟩ := h
  constructor
  · rw [h1]
    split <;> omega
  · intro v1 v2 hm1 hm2
    have e1 := h3 v1 (by simpa using hm1)
    have e2 := h3 v2 (by simpa using hm2)
    rw [e1] at e2
    simpa using e2

/-- C8 witness: two calls racing the boot, then a call after fulfilment. -/
theorem c8_webcontainer_singleton_witness :
    (wcRun wcInit [.call, .call, .resolve 7, .call]).1.boots ≤ 1 :=
  (c8_webcontainer_singleton [.call, .call, .resolve 7, .call]).1

/-- C9: sendMessage is not atomic.  When the AI call throws, the user
message is already persisted (the messages table grew by exactly the user
row) and no assistant message was added; when it succeeds, exactly one
user and one assistant message are appended, in that order. -/
theorem c9_sendMessage_not_atomic (db : DB) (sid content : String)
    (projectFiles : Option (List (String × String))) (fileTree : Option (List String))
    (uid aid : String) (nowU nowA : Nat)
    (chatOutcome chatWithFilesOutcome : Except String String) :
    (∀ e, (sendMessage db sid content projectFiles fileTree uid aid nowU nowA
          chatOutcome chatWithFilesOutcome).1 = .error e →
      ∃ u : Message, u.role = .user ∧ u.content = content ∧ u.sessionId = sid ∧
        (sendMessage db sid content projectFiles fileTree uid aid nowU nowA
          chatOutcome chatWithFilesOutcome).2.messages = db.messages ++ [u]) ∧
    (∀ u a, (sendMessage db sid content projectFiles fileTree uid aid nowU nowA
          chatOutcome chatWithFilesOutcome).1 = .ok (u, a) →
      u.role = .user ∧ u.content = content ∧ u.sessionId = sid ∧
      a.role = .assistant ∧ a.sessionId = sid ∧
      (sendMessage db sid content projectFiles fileTree uid aid nowU nowA
          chatOutcome chatWithFilesOutcome).2.messages = db.messages ++ [u, a]) := by
  constructor
  · intro e he
    simp only [sendMessage] at he ⊢
    rcases hA : chooseChatCall projectFiles fileTree chatOutcome chatWithFilesOutcome
      with e' | r
    · exact ⟨_, rfl, rfl, rfl, rfl⟩
    · rw [hA] at he
      simp at he
  · intro u a he
    simp only [sendMessage] at he ⊢
    rcases hA : chooseChatCall projectFiles fileTree chatOutcome chatWithFilesOutcome
      with e' | r
    · rw [hA] at he
      simp at he
    · rw [hA] at he
      have he2 : (Except.ok
          ({ id := uid, sessionId := sid, role := .user, content := content
             createdAt := nowU },
           { id := aid, sessionId := sid, role := .assistant, content := r
             createdAt := nowA }) : Except String (Message × Message))
          = Except.ok (u, a) := he
      injection he2 with hpair
      injection hpair with hu ha
      subst hu
      subst ha
      exact ⟨rfl, rfl, rfl, rfl, rfl, by simp⟩

/-- C9 witness: a failing chat call on the concrete database. -/
theorem c9_sendMessage_not_atomic_witness :
    ∃ u : Message, u.role = .user ∧ u.content = "hello" ∧ u.sessionId = "s1" ∧
      (sendMessage wDB "s1" "hello" none none "m2" "m3" 4 5
        (.ok "r") (.error "boom")).2.messages = wDB.messages ++ [u] :=
  (c9_sendMessage_not_atomic wDB "s1" "hello" none none "m2" "m3" 4 5
    (.ok "r") (.error "boom")).1 "boom" rfl

/-! C10 helper lemmas: lookups in the FileSystemTree trie. -/

theorem nodeAt_nil (q : List String) : nodeAt ([] : FSTree) q = none := by
  cases q with
  | nil => rfl
  | cons a t =>
    cases t with
    | nil => rfl
    | cons b u => rfl

theorem nodeAt_one (t : FSTree) (p : String) : nodeAt t [p] = getKey t p := rfl

theorem nodeAt_cons_eq (t : FSTree) (p0 q0 : String) (qs : List String) :
    nodeAt t (p0 :: q0 :: qs)
      = match getKey t p0 with
        | some (.directory d) => nodeAt d (q0 :: qs)
        | _ => none := rfl

theorem getKey_setKey (t : FSTree) (k k' : String) (v : FSNode) :
    getKey (setKey t k v) k' = if k' = k then some v else getKey t k' := by
  induction t with
  | nil =>
    by_cases h : k' = k
    · subst h
      simp [setKey, getKey]
    · simp [setKey, getKey, h, Ne.symm h]
  | cons kv rest ih =>
    obtain ⟨k0, v0⟩ := kv
    by_cases h0 : k0 = k
    · subst h0
      by_cases h1 : k' = k0
      · subst h1
        simp [setKey, getKey]
      · simp [setKey, getKey, h1, Ne.symm h1]
    · by_cases h1 : k0 = k'
      · subst h1
        simp [setKey, getKey, h0, Ne.symm h0]
      · simp [setKey, getKey, h0, h1, ih]

theorem nodeAt_cons_dir {t : FSTree} {p0 : String} {d : List (String × FSNode)}
    (hg : getKey t p0 = some (.directory d)) {q : List String} (hq : q ≠ []) :
    nodeAt t (p0 :: q) = nodeAt d q := by
  cases q with
  | nil => exact absurd rfl hq
  | cons q0 qs => simp [nodeAt_cons_eq, hg]

theorem dirsAlong_nil (p : List String) : DirsAlong ([] : FSTree) p := by
  intro q hq hpre hne c
  simp [nodeAt_nil]

theorem dirsAlong_tail {t : FSTree} {p0 : String} {prest : List String}
    {d : List (String × FSNode)}
    (hg : getKey t p0 = some (.directory d))
    (hd : DirsAlong t (p0 :: prest)) : DirsAlong d prest := by
  intro q hq hpre hne c
  have h2 := hd (p0 :: q) (by simp) (by simpa using hpre) (by simpa using hne) c
  rw [nodeAt_cons_dir hg hq] at h2
  exact h2

theorem dirsAlong_head {t : FSTree} {p0 : String} {prest : List String}
    (h : DirsAlong t (p0 :: prest)) (hne : prest ≠ []) (f : String) :
    getKey t p0 ≠ some (.file f) := by
  have h2 := h [p0] (by simp) (by simp) (by simp [eq_comm, hne]) f
  simpa [nodeAt_one] using h2

theorem insertPath_extension_none (p : List String) (t : FSTree) (c : String)
    (hp : p ≠ []) (hdirs : DirsAlong t p) (q : List String)
    (hext : p <+: q) (hne : q ≠ p) :
    nodeAt (insertPath t p c) q = none := by
  induction p generalizing t q with
  | nil => exact absurd rfl hp
  | cons p0 prest ih =>
    obtain ⟨tail, rfl⟩ := hext
    cases prest with
    | nil =>
      have htail : tail ≠ [] := by
        intro h
        subst h
        exact hne (by simp)
      obtain ⟨t1, ts, rfl⟩ : ∃ a l, tail = a :: l := by
        cases tail with
        | nil => exact absurd rfl htail
        | cons a l => exact ⟨a, l, rfl⟩
      show nodeAt (setKey t p0 (.file c)) (p0 :: t1 :: ts) = none
      rw [nodeAt_cons_eq, getKey_setKey, if_pos rfl]
    | cons p1 ps =>
      have hpre_tail : (p1 :: ps) <+: (p1 :: ps) ++ tail := ⟨tail, rfl⟩
      have hne_tail : (p1 :: ps) ++ tail ≠ (p1 :: ps) := by
        intro hcon
        apply hne
        simp only [List.cons_append]
        rw [show (p1 :: ps) ++ tail = p1 :: (ps ++ tail) from rfl] at hcon
        rw [hcon]
      rcases hgk : getKey t p0 with _ | node
      · simp only [insertPath, hgk, List.cons_append]
        rw [nodeAt_cons_eq, getKey_setKey, if_pos rfl]
        show nodeAt (insertPath [] (p1 :: ps) c) (p1 :: (ps ++ tail)) = none
        exact ih [] (by simp) (dirsAlong_nil _) _ hpre_tail hne_tail
      · cases node with
        | file f0 => exact absurd hgk (dirsAlong_head hdirs (by simp) f0)
        | directory d =>
          simp only [insertPath, hgk, List.cons_append]
          rw [nodeAt_cons_eq, getKey_setKey, if_pos rfl]
          show nodeAt (insertPath d (p1 :: ps) c) (p1 :: (ps ++ tail)) = none
          exact ih d (by simp) (dirsAlong_tail hgk hdirs) _ hpre_tail hne_tail

theorem insertPath_file_iff (p : List String) (t : FSTree) (c : String)
    (hp : p ≠ []) (hdirs : DirsAlong t p) (q : List String) (hq : q ≠ []) (c' : String)
    (hnotext : p <+: q → q = p) :
    nodeAt (insertPath t p c) q = some (.file c')
      ↔ ((q = p ∧ c' = c) ∨ (q ≠ p ∧ nodeAt t q = some (.file c'))) := by
  induction p generalizing t q with
  | nil => exact absurd rfl hp
  | cons p0 prest ih =>
    obtain ⟨q0, qrest, rfl⟩ : ∃ a l, q = a :: l := by
      cases q with
      | nil => exact absurd rfl hq
      | cons a l => exact ⟨a, l, rfl⟩
    cases prest with
    | nil =>
      cases qrest with
      | nil =>
        show getKey (setKey t p0 (.file c)) q0 = some (.file c') ↔ _
        rw [getKey_setKey]
        by_cases h : q0 = p0
        · subst h
          simp [eq_comm]
        · simp [h, nodeAt_one]
      | cons q1 qs =>
        by_cases h : q0 = p0
        · subst h
          exact absurd (hnotext ⟨q1 :: qs, rfl⟩) (by simp)
        · rw [show insertPath t [p0] c = setKey t p0 (.file c) from rfl]
          rw [nodeAt_cons_eq, getKey_setKey, if_neg h, ← nodeAt_cons_eq]
          constructor
          · intro hx
            exact .inr ⟨by simp [h], hx⟩
          · rintro (⟨heq, _⟩ | ⟨_, hx⟩)
            · exact absurd heq (by simp [h])
            · exact hx
    | cons p1 ps =>
      rcases hgk : getKey t p0 with _ | node
      · -- no node under p0 yet: a fresh directory is created
        simp only [insertPath, hgk]
        cases qrest with
        | nil =>
          rw [nodeAt_one, getKey_setKey]
          by_cases h : q0 = p0
          · subst h
            simp [nodeAt_one, hgk]
          · simp [h, nodeAt_one]
        | cons q1 qs =>
          by_cases h : q0 = p0
          · subst h
            rw [nodeAt_cons_eq, getKey_setKey, if_pos rfl]
            have hih := ih [] (by simp) (dirsAlong_nil _) (q1 :: qs) (by simp) (by
              intro hpre
              have := hnotext (by simpa using hpre)
              simpa using this)
            rw [show (match some (FSNode.directory (insertPath [] (p1 :: ps) c)) with
                | some (.directory d) => nodeAt d (q1 :: qs)
                | _ => none)
              = nodeAt (insertPath [] (p1 :: ps) c) (q1 :: qs) from rfl]
            rw [hih]
            rw [nodeAt_cons_eq, hgk]
            simp [nodeAt_nil]
          · rw [nodeAt_cons_eq, getKey_setKey, if_neg h, ← nodeAt_cons_eq]
            constructor
            · intro hx
              exact .inr ⟨by simp [h], hx⟩
            · rintro (⟨heq, _⟩ | ⟨_, hx⟩)
              · exact absurd heq (by simp [h])
              · exact hx
      · cases node with
        | file f0 => exact absurd hgk (dirsAlong_head hdirs (by simp) f0)
        | directory d =>
          simp only [insertPath, hgk]
          cases qrest with
          | nil =>
            rw [nodeAt_one, getKey_setKey]
            by_cases h : q0 = p0
            · subst h
              simp [nodeAt_one, hgk]
            · simp [h, nodeAt_one]
          | cons q1 qs =>
            by_cases h : q0 = p0
            · subst h
              rw [nodeAt_cons_eq, getKey_setKey, if_pos rfl]
              have hih := ih d (by simp) (dirsAlong_tail hgk hdirs) (q1 :: qs) (by simp) (by
                intro hpre
                have := hnotext (by simpa using hpre)
                simpa using this)
              rw [show (match some (FSNode.directory (insertPath d (p1 :: ps) c)) with
                  | some (.directory d) => nodeAt d (q1 :: qs)
                  | _ => none)
                = nodeAt (insertPath d (p1 :: ps) c) (q1 :: qs) from rfl]
              rw [hih]
              rw [nodeAt_cons_eq, hgk]
              simp
            · rw [nodeAt_cons_eq, getKey_setKey, if_neg h, ← nodeAt_cons_eq]
              constructor
              · intro hx
                exact .inr ⟨by simp [h], hx⟩
              · rintro (⟨heq, _⟩ | ⟨_, hx⟩)
                · exact absurd heq (by simp [h])
                · exact hx

theorem jsSplitSlash_ne_nil (s : String) : jsSplitSlash s ≠ [] := by
  intro h
  have hlen := congrArg List.length h
  simp [jsSplitSlash] at hlen

theorem lastContentFor_append_single (done : List ProjectFile) (f : ProjectFile)
    (q : List String) :
    lastContentFor (done ++ [f]) q
      = if jsSplitSlash f.path = q then some f.content else lastContentFor done q := by
  unfold lastContentFor
  rw [List.filter_append]
  by_cases h : jsSplitSlash f.path = q
  · simp [h, List.getLast?_concat]
  · simp [h]

theorem exists_of_lastContentFor (l : List ProjectFile) (q : List String) (c : String)
    (h : lastContentFor l q = some c) : ∃ g ∈ l, jsSplitSlash g.path = q := by
  unfold lastContentFor at h
  obtain ⟨g, hg⟩ : ∃ g, (l.filter fun f => jsSplitSlash f.path == q).getLast? = some g := by
    cases hx : (l.filter fun f => jsSplitSlash f.path == q).getLast? with
    | none =>
      rw [hx] at h
      exact absurd h (by simp)
    | some g => exact ⟨g, rfl⟩
  have hmem : g ∈ l.filter fun f => jsSplitSlash f.path == q := by
    obtain ⟨hne, heq⟩ := List.mem_getLast?_eq_getLast
      (l := l.filter fun f => jsSplitSlash f.path == q) (x := g)
      (by simp [Option.mem_def, hg])
    rw [heq]
    exact List.getLast_mem hne
  have hsplit := List.mem_filter.mp hmem
  exact ⟨g, hsplit.1, by simpa using hsplit.2⟩

theorem lastContentFor_mem_isSome (l : List ProjectFile) (f : ProjectFile) (hf : f ∈ l) :
    ∃ c, lastContentFor l (jsSplitSlash f.path) = some c := by
  unfold lastContentFor
  have hne : (l.filter fun g => jsSplitSlash g.path == jsSplitSlash f.path) ≠ [] := by
    intro hnil
    have hmem : f ∈ l.filter fun g => jsSplitSlash g.path == jsSplitSlash f.path :=
      List.mem_filter.mpr ⟨hf, by simp⟩
    rw [hnil] at hmem
    simp at hmem
  obtain ⟨g, hg⟩ := Option.isSome_iff_exists.mp (List.getLast?_isSome.mpr hne)
  exact ⟨g.content, by rw [hg]; rfl⟩

theorem buildTree_fold_invariant (rest : List ProjectFile) :
    ∀ (done : List ProjectFile) (t : FSTree),
    (∀ f ∈ done ++ rest, ∀ g ∈ done ++ rest,
      jsSplitSlash f.path ≠ jsSplitSlash g.path →
        ¬ jsSplitSlash f.path <+: jsSplitSlash g.path) →
    (∀ q c', q ≠ [] →
      (nodeAt t q = some (.file c') ↔ lastContentFor done q = some c')) →
    ∀ q c', q ≠ [] →
      (nodeAt (rest.foldl (fun t f => insertPath t (jsSplitSlash f.path) f.content) t) q
          = some (.file c')
        ↔ lastContentFor (done ++ rest) q = some c') := by
  induction rest with
  | nil =>
    intro done t hnp hInv
    simpa using hInv
  | cons f fs ih =>
    intro done t hnp hInv
    have hpne := jsSplitSlash_ne_nil f.path
    have hstep : ∀ q c', q ≠ [] →
        (nodeAt (insertPath t (jsSplitSlash f.path) f.content) q = some (.file c')
          ↔ lastContentFor (done ++ [f]) q = some c') := by
      intro q c' hq
      have hdirs : DirsAlong t (jsSplitSlash f.path) := by
        intro u hu hupre hune cu hnode
        obtain ⟨g, hgmem, hgseg⟩ := exists_of_lastContentFor done u cu
          ((hInv u cu hu).mp hnode)
        have hfg := hnp g (by simp [hgmem]) f (by simp) (by rw [hgseg]; exact hune)
        rw [hgseg] at hfg
        exact hfg hupre
      rw [lastContentFor_append_single]
      by_cases hext : jsSplitSlash f.path <+: q ∧ q ≠ jsSplitSlash f.path
      · rw [insertPath_extension_none _ t f.content hpne hdirs q hext.1 hext.2]
        rw [if_neg (fun hh => hext.2 hh.symm)]
        constructor
        · intro hfalse
          exact absurd hfalse (by simp)
        · intro hlast
          obtain ⟨g, hgmem, hgseg⟩ := exists_of_lastContentFor done q _ hlast
          have hfg := hnp f (by simp) g (by simp [hgmem])
            (by rw [hgseg]; exact fun hh => hext.2 hh.symm)
          rw [hgseg] at hfg
          exact absurd hext.1 hfg
      · have hnotext : jsSplitSlash f.path <+: q → q = jsSplitSlash f.path := by
          intro hpre
          by_contra hne2
          exact hext ⟨hpre, hne2⟩
        rw [insertPath_file_iff _ t f.content hpne hdirs q hq c' hnotext]
        by_cases heq : q = jsSplitSlash f.path
        · rw [if_pos heq.symm]
          constructor
          · rintro (⟨_, rfl⟩ | ⟨hne2, _⟩)
            · rfl
            · exact absurd heq hne2
          · intro hsome
            have hcc : f.content = c' := by
              injection hsome
            exact .inl ⟨heq, hcc.symm⟩
        · rw [if_neg (fun hh => heq hh.symm)]
          rw [← hInv q c' hq]
          constructor
          · rintro (⟨hq2, _⟩ | ⟨_, hx⟩)
            · exact absurd hq2 heq
            · exact hx
          · intro hx
            exact .inr ⟨heq, hx⟩
    have hfold := ih (done ++ [f]) (insertPath t (jsSplitSlash f.path) f.content)
      (by simpa [List.append_assoc] using hnp) hstep
    intro q c' hq
    have hres := hfold q c' hq
    simpa [List.append_assoc] using hres

/-- C10: for project file lists in which no file's full segment path is a
proper directory prefix of another file's path, the built FileSystemTree
holds, at the node reached by each file's slash-split path, a file node
whose content is that of the last listed file with that path (so a later
duplicate wins). -/
theorem c10_projectFilesToFileSystemTree (files : List ProjectFile)
    (hnp : ∀ f ∈ files, ∀ g ∈ files,
      jsSplitSlash f.path ≠ jsSplitSlash g.path →
        ¬ jsSplitSlash f.path <+: jsSplitSlash g.path) :
    ∀ f ∈ files, ∃ c,
      lastContentFor files (jsSplitSlash f.path) = some c ∧
      nodeAt (projectFilesToFileSystemTree files) (jsSplitSlash f.path)
        = some (.file c) := by
  intro f hf
  obtain ⟨c, hc⟩ := lastContentFor_mem_isSome files f hf
  refine ⟨c, hc, ?_⟩
  have hinv := buildTree_fold_invariant files [] ([] : FSTree)
    (by simpa using hnp)
    (by
      intro q c' hq
      simp [nodeAt_nil, lastContentFor])
  exact (hinv (jsSplitSlash f.path) c (jsSplitSlash_ne_nil f.path)).mpr (by simpa using hc)

/-- C10 witness: three concrete files, one path duplicated; the duplicate
path resolves to the later content. -/
theorem c10_projectFilesToFileSystemTree_witness :
    ∃ c, lastContentFor wFiles (jsSplitSlash ("src/a.ts")) = some c ∧
      nodeAt (projectFilesToFileSystemTree wFiles) (jsSplitSlash ("src/a.ts"))
        = some (.file c) :=
  c10_projectFilesToFileSystemTree wFiles (by decide)
    { path := "src/a.ts", language := "ts", content := "A" } (by decide)

end HireHiker
